import Mathlib

/-!
Verification of the asynchronous PNG-to-WebP conversion job engine
(`server.js`): the quality-search converter `convertToWebP`, the recursive
tree walk `processDirectory`, the job registry records published by
`processFilesAsync`, and the submission/status/download handlers.

Modelling conventions:
- byte buffers are `List Nat`; the image codec (`sharp(buffer).webp({quality})`)
  is an uninterpreted total function `encode : Bytes → Nat → Bytes` supplied
  as a parameter;
- filesystem primitives are reliable, as the specification assumes; an
  extracted archive is a tree of named entries; writes performed by the walk
  are collected as a list of (relative path, bytes) pairs;
- the registry writes (`processingJobs.set`) performed by one job are
  collected, in order, as a list of `JobRecord`s; the last element is the
  record a concurrent reader sees once the job's task has finished;
- JavaScript numbers are modelled as `Nat`; `Math.floor((p / t) * 70)` is
  modelled as `p * 70 / t` in natural division.
-/

/-- Byte buffers, modelled as lists of byte values. -/
abbrev Bytes := List Nat

/-- The 2 MiB output-size ceiling (`const maxSize = 2 * 1024 * 1024`). -/
def maxSize : Nat := 2 * 1024 * 1024

/-- The single failure mode of the quality-search converter
(`throw new Error("Could not compress image under 2MB")`). -/
inductive CompressError where
  | CompressionFailed
deriving DecidableEq

/-- The quality-search converter `convertToWebP(buffer, quality = 90)`:
fail once `quality < 10`; otherwise encode at `quality` and return the
result when it fits under `maxSize`, else retry at `quality - 10`. -/
def convertToWebP (encode : Bytes → Nat → Bytes) (buffer : Bytes)
    (quality : Nat) : Except CompressError Bytes :=
  if _h : quality < 10 then
    .error .CompressionFailed
  else if (encode buffer quality).length > maxSize then
    convertToWebP encode buffer (quality - 10)
  else
    .ok (encode buffer quality)
termination_by quality
decreasing_by omega

/-- The quality levels at which `convertToWebP` invokes the codec, in
invocation order (instrumentation of the same recursion). -/
def qualitiesTried (encode : Bytes → Nat → Bytes) (buffer : Bytes)
    (quality : Nat) : List Nat :=
  if _h : quality < 10 then
    []
  else if (encode buffer quality).length > maxSize then
    quality :: qualitiesTried encode buffer (quality - 10)
  else
    [quality]
termination_by quality
decreasing_by omega

section Ladder

variable (encode : Bytes → Nat → Bytes) (buffer : Bytes)

theorem convertToWebP_ok_le (q : Nat) :
    ∀ w, convertToWebP encode buffer q = .ok w → w.length ≤ maxSize := by
  induction q using Nat.strong_induction_on with
  | _ q ih =>
    intro w hw
    rw [convertToWebP] at hw
    split at hw
    · exact absurd hw (by simp)
    · next hq =>
      split at hw
      · exact ih (q - 10) (by omega) w hw
      · next hlen =>
        cases hw
        omega

theorem convertToWebP_total (q : Nat) :
    (∃ w, convertToWebP encode buffer q = .ok w ∧ w.length ≤ maxSize) ∨
      convertToWebP encode buffer q = .error .CompressionFailed := by
  induction q using Nat.strong_induction_on with
  | _ q ih =>
    rw [convertToWebP]
    split
    · exact Or.inr rfl
    · next hq =>
      split
      · exact ih (q - 10) (by omega)
      · next hlen => exact Or.inl ⟨_, rfl, by omega⟩

theorem qualitiesTried_head (n : Nat) :
    (qualitiesTried encode buffer (10 * n + 10)).head? = some (10 * n + 10) := by
  rw [qualitiesTried]
  split
  · omega
  · split <;> rfl

theorem qualitiesTried_zero : qualitiesTried encode buffer 0 = [] := by
  rw [qualitiesTried]
  simp

theorem qualitiesTried_chain (n : Nat) :
    List.Chain' (fun a b => a = b + 10)
      (qualitiesTried encode buffer (10 * n + 10)) := by
  induction n with
  | zero =>
    rw [qualitiesTried]
    split
    · omega
    · split
      · rw [show 10 * 0 + 10 - 10 = 0 from rfl, qualitiesTried_zero]
        simp
      · simp
  | succ n ih =>
    rw [qualitiesTried]
    split
    · omega
    · split
      · have hsub : 10 * (n + 1) + 10 - 10 = 10 * n + 10 := by omega
        rw [hsub, List.chain'_cons']
        refine ⟨?_, ih⟩
        intro y hy
        rw [qualitiesTried_head encode buffer n] at hy
        simp only [Option.mem_def, Option.some.injEq] at hy
        omega
      · simp

theorem qualitiesTried_mem (n : Nat) :
    ∀ x ∈ qualitiesTried encode buffer (10 * n + 10),
      10 ≤ x ∧ x ≤ 10 * n + 10 := by
  induction n with
  | zero =>
    rw [qualitiesTried]
    split
    · omega
    · split
      · rw [show 10 * 0 + 10 - 10 = 0 from rfl, qualitiesTried_zero]
        intro x hx
        simp only [List.mem_singleton, List.mem_cons, List.not_mem_nil,
          or_false] at hx
        omega
      · intro x hx
        simp only [List.mem_singleton] at hx
        omega
  | succ n ih =>
    rw [qualitiesTried]
    split
    · omega
    · split
      · intro x hx
        have hsub : 10 * (n + 1) + 10 - 10 = 10 * n + 10 := by omega
        rw [hsub] at hx
        rcases List.mem_cons.mp hx with h | h
        · omega
        · have := ih x h
          omega
      · intro x hx
        simp only [List.mem_singleton] at hx
        omega

theorem qualitiesTried_ok (n : Nat) :
    ∀ w, convertToWebP encode buffer (10 * n + 10) = .ok w →
      ∃ q, (qualitiesTried encode buffer (10 * n + 10)).getLast? = some q ∧
        w = encode buffer q ∧ (encode buffer q).length ≤ maxSize ∧
        ∀ p ∈ qualitiesTried encode buffer (10 * n + 10),
          p ≠ q → maxSize < (encode buffer p).length := by
  induction n with
  | zero =>
    intro w hw
    rw [convertToWebP] at hw
    split at hw
    · omega
    · split at hw
      · next hlen =>
        rw [show 10 * 0 + 10 - 10 = 0 from rfl, convertToWebP] at hw
        simp at hw
      · next hlen =>
        cases hw
        rw [qualitiesTried, dif_neg (by omega : ¬ 10 * 0 + 10 < 10),
          if_neg hlen]
        refine ⟨10 * 0 + 10, by simp, rfl, by omega, ?_⟩
        intro p hp hpq
        simp only [List.mem_singleton] at hp
        exact absurd hp hpq
  | succ n ih =>
    intro w hw
    rw [convertToWebP] at hw
    split at hw
    · omega
    · next hq =>
      split at hw
      · next hlen =>
        have hsub : 10 * (n + 1) + 10 - 10 = 10 * n + 10 := by omega
        rw [hsub] at hw
        obtain ⟨q, hlast, hwq, hle, hother⟩ := ih w hw
        rw [qualitiesTried, dif_neg hq, if_pos hlen, hsub]
        refine ⟨q, ?_, hwq, hle, ?_⟩
        · rw [List.getLast?_cons]
          have : qualitiesTried encode buffer (10 * n + 10) ≠ [] := by
            intro hnil
            rw [hnil] at hlast
            simp at hlast
          rw [List.getLast?_eq_getLast _ this] at hlast ⊢
          simpa using hlast
        · intro p hp hpq
          rcases List.mem_cons.mp hp with h | h
          · subst h
            exact hlen
          · exact hother p h hpq
      · next hlen =>
        cases hw
        rw [qualitiesTried, dif_neg hq, if_neg hlen]
        refine ⟨10 * (n + 1) + 10, by simp, rfl, by omega, ?_⟩
        intro p hp hpq
        simp only [List.mem_singleton] at hp
        exact absurd hp hpq

theorem qualitiesTried_err (n : Nat) :
    convertToWebP encode buffer (10 * n + 10) = .error .CompressionFailed →
      (qualitiesTried encode buffer (10 * n + 10)).getLast? = some 10 ∧
        ∀ p ∈ qualitiesTried encode buffer (10 * n + 10),
          maxSize < (encode buffer p).length := by
  induction n with
  | zero =>
    intro hw
    rw [convertToWebP] at hw
    split at hw
    · omega
    · split at hw
      · next hlen =>
        rw [qualitiesTried, dif_neg (by omega : ¬ 10 * 0 + 10 < 10),
          if_pos hlen, show 10 * 0 + 10 - 10 = 0 from rfl,
          qualitiesTried_zero]
        refine ⟨rfl, ?_⟩
        intro p hp
        simp only [List.mem_cons, List.not_mem_nil, or_false] at hp
        subst hp
        exact hlen
      · simp at hw
  | succ n ih =>
    intro hw
    rw [convertToWebP] at hw
    split at hw
    · omega
    · next hq =>
      split at hw
      · next hlen =>
        have hsub : 10 * (n + 1) + 10 - 10 = 10 * n + 10 := by omega
        rw [hsub] at hw
        obtain ⟨hlast, hall⟩ := ih hw
        rw [qualitiesTried, dif_neg hq, if_pos hlen, hsub]
        constructor
        · rw [List.getLast?_cons]
          have : qualitiesTried encode buffer (10 * n + 10) ≠ [] := by
            intro hnil
            rw [hnil] at hlast
            simp at hlast
          rw [List.getLast?_eq_getLast _ this] at hlast ⊢
          simpa using hlast
        · intro p hp
          rcases List.mem_cons.mp hp with h | h
          · subst h
            exact hlen
          · exact hall p h
      · simp at hw

end Ladder

/-! ### File names: `path.extname`, `path.parse(...).name` -/

/-- Splits a character list at its last dot: the part before and after it. -/
def lastDotSplit (cs : List Char) : Option (List Char × List Char) :=
  let rev := cs.reverse
  let post := rev.takeWhile (fun c => c ≠ '.')
  if post.length = rev.length then none
  else some ((rev.drop (post.length + 1)).reverse, post.reverse)

/-- Model of Node's `path.extname`: the suffix from the last dot of the name,
empty when there is no dot or the only dot is the leading character. -/
def extname (s : String) : String :=
  match lastDotSplit s.data with
  | none => ""
  | some (pre, post) => if pre = [] then "" else String.mk ('.' :: post)

/-- Model of Node's `path.parse(name).name`: the name with its extension
(as computed by `extname`) removed. -/
def stemName (s : String) : String :=
  match lastDotSplit s.data with
  | none => s
  | some (pre, _post) => if pre = [] then s else String.mk pre

/-- Model of `.toLowerCase()`: lower-case every character. -/
def lowerStr (s : String) : String :=
  String.mk (s.data.map Char.toLower)

/-- The convertible-file predicate used by both the counting pass and the
walk: `path.extname(item).toLowerCase() === ".png"`. -/
def isPngName (name : String) : Bool :=
  lowerStr (extname name) == ".png"

/-- Output file name for a walk entry: converted PNGs are renamed to the
`.webp` extension, every other file keeps its name. -/
def outName (name : String) : String :=
  if isPngName name then stemName name ++ ".webp" else name

/-! ### The extracted directory tree -/

/-- One entry of an extracted directory: a subdirectory or a file. -/
inductive Entry where
  | dir (name : String) (children : List Entry)
  | file (name : String) (content : Bytes)

mutual

def Entry.beq : Entry → Entry → Bool
  | .dir n1 c1, .dir n2 c2 => n1 == n2 && Entry.beqList c1 c2
  | .file n1 b1, .file n2 b2 => n1 == n2 && b1 == b2
  | _, _ => false

def Entry.beqList : List Entry → List Entry → Bool
  | [], [] => true
  | e :: es, f :: fs => Entry.beq e f && Entry.beqList es fs
  | _, _ => false

end

mutual

theorem Entry.beq_iff : ∀ a b : Entry, Entry.beq a b = true ↔ a = b
  | .dir n1 c1, .dir n2 c2 => by
    simp [Entry.beq, Entry.beqList_iff c1 c2]
  | .dir _ _, .file _ _ => by simp [Entry.beq]
  | .file _ _, .dir _ _ => by simp [Entry.beq]
  | .file n1 b1, .file n2 b2 => by simp [Entry.beq]

theorem Entry.beqList_iff : ∀ as bs : List Entry, Entry.beqList as bs = true ↔ as = bs
  | [], [] => by simp [Entry.beqList]
  | [], _ :: _ => by simp [Entry.beqList]
  | _ :: _, [] => by simp [Entry.beqList]
  | a :: as, b :: bs => by
    simp [Entry.beqList, Entry.beq_iff a b, Entry.beqList_iff as bs]

end

instance : DecidableEq Entry := fun a b =>
  decidable_of_iff _ (Entry.beq_iff a b)

/-! ### Job records published to the registry -/

/-- Job status values written by the orchestrator. -/
inductive JobStatus where
  | extracting
  | converting
  | zipping
  | completed
  | failed
deriving DecidableEq

/-- One value stored in `processingJobs`; each `processingJobs.set` call in
the source replaces the whole record, fields it omits become `none`. -/
structure JobRecord where
  status : JobStatus
  progress : Option Nat := none
  processedFiles : Option Nat := none
  totalFiles : Option Nat := none
  tempDir : String
  outputPath : Option String := none
  errorMessage : Option String := none
  downloadUrl : Option String := none
deriving DecidableEq

/-- Per-job temp directory `path.join(__dirname, "temp", jobId)`. -/
def tempDirOf (jobId : String) : String := "temp/" ++ jobId

/-- Output archive path `path.join(tempDir, "converted.zip")`. -/
def outputZipOf (jobId : String) : String := tempDirOf jobId ++ "/converted.zip"

/-- Converting-stage progress: `Math.min(90, 10 + Math.floor((p / t) * 70))`. -/
def progressOf (processed total : Nat) : Nat :=
  min 90 (10 + processed * 70 / total)

def extractingRecord (jobId : String) : JobRecord :=
  { status := .extracting, progress := some 0, tempDir := tempDirOf jobId,
    outputPath := some (outputZipOf jobId) }

def convertingRecord (jobId : String) : JobRecord :=
  { status := .converting, progress := some 10, tempDir := tempDirOf jobId,
    outputPath := some (outputZipOf jobId) }

def fileRecord (jobId : String) (p t : Nat) : JobRecord :=
  { status := .converting, progress := some (progressOf p t),
    processedFiles := some p, totalFiles := some t,
    tempDir := tempDirOf jobId, outputPath := some (outputZipOf jobId) }

def zippingRecord (jobId : String) : JobRecord :=
  { status := .zipping, progress := some 90, tempDir := tempDirOf jobId,
    outputPath := some (outputZipOf jobId) }

def completedRecord (jobId : String) (p t : Nat) : JobRecord :=
  { status := .completed, progress := some 100, processedFiles := some p,
    totalFiles := some t, tempDir := tempDirOf jobId,
    outputPath := some (outputZipOf jobId),
    downloadUrl := some ("/download/" ++ jobId) }

def failedRecord (jobId : String) (msg : String) : JobRecord :=
  { status := .failed, tempDir := tempDirOf jobId, errorMessage := some msg }

/-! ### Counting passes over the extracted tree -/

mutual

/-- The pre-walk counting pass `countPngs` restricted to one entry. -/
def countPngsEntry : Entry → Nat
  | .dir _ children => countPngsList children
  | .file name _ => if isPngName name then 1 else 0

/-- The pre-walk counting pass `countPngs` over a directory listing. -/
def countPngsList : List Entry → Nat
  | [] => 0
  | e :: es => countPngsEntry e + countPngsList es

end

mutual

/-- Number of convertible files in one entry whose conversion succeeds. -/
def countOkEntry (encode : Bytes → Nat → Bytes) : Entry → Nat
  | .dir _ children => countOkList encode children
  | .file name c =>
    if isPngName name then
      match convertToWebP encode c 90 with
      | .ok _ => 1
      | .error _ => 0
    else 0

/-- Number of convertible files in a listing whose conversion succeeds. -/
def countOkList (encode : Bytes → Nat → Bytes) : List Entry → Nat
  | [] => 0
  | e :: es => countOkEntry encode e + countOkList encode es

end

mutual

/-- Number of convertible files in one entry whose conversion fails. -/
def countFailEntry (encode : Bytes → Nat → Bytes) : Entry → Nat
  | .dir _ children => countFailList encode children
  | .file name c =>
    if isPngName name then
      match convertToWebP encode c 90 with
      | .ok _ => 0
      | .error _ => 1
    else 0

/-- Number of convertible files in a listing whose conversion fails. -/
def countFailList (encode : Bytes → Nat → Bytes) : List Entry → Nat
  | [] => 0
  | e :: es => countFailEntry encode e + countFailList encode es

end

/-! ### The conversion walk `processDirectory` -/

/-- Observable outcome of walking a (sub)tree: the running processed-file
counter, the registry records published, and the files written to the
output tree as (relative path, bytes) pairs. -/
structure WalkOut where
  count : Nat
  recs : List JobRecord
  writes : List (List String × Bytes)

mutual

/-- The body of the `for (const item of items)` loop of `processDirectory`
for a single entry: recurse into directories, attempt conversion of `.png`
files (a failure is caught and produces nothing), copy every other file. -/
def processEntry (encode : Bytes → Nat → Bytes) (jobId : String)
    (total : Nat) (pfx : List String) (p : Nat) : Entry → WalkOut
  | .dir name children =>
    processDirectory encode jobId total (pfx ++ [name]) p children
  | .file name c =>
    if isPngName name then
      match convertToWebP encode c 90 with
      | .ok webp =>
        { count := p + 1,
          recs := [fileRecord jobId (p + 1) total],
          writes := [(pfx ++ [stemName name ++ ".webp"], webp)] }
      | .error _ => { count := p, recs := [], writes := [] }
    else
      { count := p, recs := [], writes := [(pfx ++ [name], c)] }

/-- The walk `processDirectory(sourceDir, outputDir)` over a directory
listing, threading the `processedPngs` counter through the entries. -/
def processDirectory (encode : Bytes → Nat → Bytes) (jobId : String)
    (total : Nat) (pfx : List String) (p : Nat) : List Entry → WalkOut
  | [] => { count := p, recs := [], writes := [] }
  | e :: es =>
    let r1 := processEntry encode jobId total pfx p e
    let r2 := processDirectory encode jobId total pfx r1.count es
    { count := r2.count, recs := r1.recs ++ r2.recs,
      writes := r1.writes ++ r2.writes }

end

/-! ### The orchestrator `processFilesAsync` -/

/-- Observable outcome of one job task: the registry records published in
order, the output files written, and whether the failure-path temp-directory
cleanup was attempted. -/
structure JobRun where
  recs : List JobRecord
  writes : List (List String × Bytes)
  cleanupAttempted : Bool

/-- The orchestrator `processFilesAsync(jobId, fileBuffer)`. Archive
extraction and archive creation are black boxes that either succeed or
raise (`extractRes`, `zipRes`); `cleanupRes` is the outcome of the
failure-path `fs.rmSync`, whose error the source catches and logs. -/
def processFilesAsync (encode : Bytes → Nat → Bytes) (jobId : String)
    (extractRes : Except String (List Entry)) (zipRes : Except String Unit)
    (cleanupRes : Except String Unit) : JobRun :=
  match extractRes with
  | .error e =>
    match cleanupRes with
    | .ok _ =>
      { recs := [extractingRecord jobId, failedRecord jobId e],
        writes := [], cleanupAttempted := true }
    | .error _ =>
      { recs := [extractingRecord jobId, failedRecord jobId e],
        writes := [], cleanupAttempted := true }
  | .ok tree =>
    let total := countPngsList tree
    let w := processDirectory encode jobId total [] 0 tree
    match zipRes with
    | .error e =>
      match cleanupRes with
      | .ok _ =>
        { recs := [extractingRecord jobId, convertingRecord jobId] ++ w.recs
            ++ [zippingRecord jobId, failedRecord jobId e],
          writes := w.writes, cleanupAttempted := true }
      | .error _ =>
        { recs := [extractingRecord jobId, convertingRecord jobId] ++ w.recs
            ++ [zippingRecord jobId, failedRecord jobId e],
          writes := w.writes, cleanupAttempted := true }
    | .ok _ =>
      { recs := [extractingRecord jobId, convertingRecord jobId] ++ w.recs
          ++ [zippingRecord jobId, completedRecord jobId w.count total],
        writes := w.writes, cleanupAttempted := false }

/-! ### Registry, submission, status and download handlers -/

/-- The in-memory job registry `processingJobs`. -/
abbrev Registry := List (String × JobRecord)

/-- Registry lookup `processingJobs.get(jobId)`. -/
def regGet (reg : Registry) (jobId : String) : Option JobRecord :=
  (reg.find? (fun kv => kv.1 == jobId)).map (fun kv => kv.2)

/-- The `POST /convert-folder-structure` handler: generates
`Date.now().toString()` as the job id and returns it at once; the first
registry write happens later, inside the scheduled `processFilesAsync`
task, so the handler leaves the registry untouched. -/
def submitFolderStructure (reg : Registry) (now : Nat) : String × Registry :=
  (toString now, reg)

/-- The registry once the task for `jobId` has finished: the last record it
set is the one readers see. -/
def registryAfter (jobId : String) (run : JobRun) : Registry :=
  match run.recs.getLast? with
  | some r => [(jobId, r)]
  | none => []

/-- Result of `GET /download/:jobId`. -/
inductive DownloadResult where
  | notFound
  | fileAt (path : String)
deriving DecidableEq

/-- The `GET /download/:jobId` handler: 404 unless the job exists and its
status is `completed`. -/
def downloadEndpoint (reg : Registry) (jobId : String) : DownloadResult :=
  match regGet reg jobId with
  | none => .notFound
  | some job =>
    if job.status = .completed then .fileAt (job.outputPath.getD "")
    else .notFound

/-- Statuses in which the spec requires monotone progress. -/
def isTerminal : JobStatus → Bool
  | .completed => true
  | .failed => true
  | _ => false

/-- Progress of a record when its status is non-terminal. -/
def nonTerminalProgress (r : JobRecord) : Option Nat :=
  if isTerminal r.status then none else r.progress

/-! ### Characterization of the walk -/

mutual

theorem processEntry_count (encode : Bytes → Nat → Bytes) (jobId : String)
    (total : Nat) : ∀ (pfx : List String) (p : Nat) (e : Entry),
    (processEntry encode jobId total pfx p e).count = p + countOkEntry encode e
  | pfx, p, .dir name children => by
    rw [processEntry, countOkEntry]
    exact processDirectory_count encode jobId total (pfx ++ [name]) p children
  | pfx, p, .file name c => by
    rw [processEntry, countOkEntry]
    split
    · cases h : convertToWebP encode c 90 <;> simp [h]
    · simp

theorem processDirectory_count (encode : Bytes → Nat → Bytes)
    (jobId : String) (total : Nat) :
    ∀ (pfx : List String) (p : Nat) (es : List Entry),
    (processDirectory encode jobId total pfx p es).count =
      p + countOkList encode es
  | _pfx, p, [] => by simp [processDirectory, countOkList]
  | pfx, p, e :: es => by
    simp only [processDirectory, countOkList]
    rw [processDirectory_count encode jobId total pfx _ es,
      processEntry_count encode jobId total pfx p e]
    omega

end

mutual

theorem processEntry_recs (encode : Bytes → Nat → Bytes) (jobId : String)
    (total : Nat) : ∀ (pfx : List String) (p : Nat) (e : Entry),
    (processEntry encode jobId total pfx p e).recs =
      (List.range' (p + 1) (countOkEntry encode e)).map
        (fun k => fileRecord jobId k total)
  | pfx, p, .dir name children => by
    rw [processEntry, countOkEntry]
    exact processDirectory_recs encode jobId total (pfx ++ [name]) p children
  | pfx, p, .file name c => by
    rw [processEntry, countOkEntry]
    split
    · cases h : convertToWebP encode c 90 <;> simp [h]
    · simp

theorem processDirectory_recs (encode : Bytes → Nat → Bytes)
    (jobId : String) (total : Nat) :
    ∀ (pfx : List String) (p : Nat) (es : List Entry),
    (processDirectory encode jobId total pfx p es).recs =
      (List.range' (p + 1) (countOkList encode es)).map
        (fun k => fileRecord jobId k total)
  | _pfx, p, [] => by simp [processDirectory, countOkList]
  | pfx, p, e :: es => by
    simp only [processDirectory, countOkList]
    rw [processDirectory_recs encode jobId total pfx _ es,
      processEntry_recs encode jobId total pfx p e,
      processEntry_count encode jobId total pfx p e]
    rw [← List.map_append]
    congr 1
    have := List.range'_append (p + 1) (countOkEntry encode e)
      (countOkList encode es) 1
    simp only [one_mul] at this
    rw [show p + countOkEntry encode e + 1
        = p + 1 + countOkEntry encode e by omega]
    rw [this]
    congr 1
    omega

end

mutual

theorem countOk_add_countFail_entry (encode : Bytes → Nat → Bytes) :
    ∀ e : Entry,
    countOkEntry encode e + countFailEntry encode e = countPngsEntry e
  | .dir name children => by
    rw [countOkEntry, countFailEntry, countPngsEntry]
    exact countOk_add_countFail_list encode children
  | .file name c => by
    rw [countOkEntry, countFailEntry, countPngsEntry]
    split
    · cases h : convertToWebP encode c 90 <;> simp [h]
    · simp

theorem countOk_add_countFail_list (encode : Bytes → Nat → Bytes) :
    ∀ es : List Entry,
    countOkList encode es + countFailList encode es = countPngsList es
  | [] => by simp [countOkList, countFailList, countPngsList]
  | e :: es => by
    rw [countOkList, countFailList, countPngsList]
    have h1 := countOk_add_countFail_entry encode e
    have h2 := countOk_add_countFail_list encode es
    omega

end

theorem countOk_le_countPngs (encode : Bytes → Nat → Bytes)
    (es : List Entry) : countOkList encode es ≤ countPngsList es := by
  have := countOk_add_countFail_list encode es
  omega

/-! ### Locating files in the extracted tree -/

/-- Children lists of the subdirectories of `es` named `d`. -/
def subDirs (d : String) (es : List Entry) : List (List Entry) :=
  es.filterMap (fun e => match e with
    | .dir n cs => if n = d then some cs else none
    | .file _ _ => none)

/-- Directory listings reachable from `es` by following the directory-name
path `ds`. -/
def dirsAt : List String → List Entry → List (List Entry)
  | [], es => [es]
  | d :: ds, es => (subDirs d es).flatMap (dirsAt ds)

/-- The tree `es` contains, in the directory at path `ds`, a file named `n`
with content `c`. -/
def FileIn (ds : List String) (n : String) (c : Bytes)
    (es : List Entry) : Prop :=
  ∃ cs ∈ dirsAt ds es, Entry.file n c ∈ cs

instance (ds : List String) (n : String) (c : Bytes) (es : List Entry) :
    Decidable (FileIn ds n c es) :=
  List.decidableBEx _ (dirsAt ds es)

/-- Whether walking this entry can create an output file named `target`
in its own directory: a file whose output name is `target`. -/
def producesName (target : String) : Entry → Bool
  | .dir _ _ => false
  | .file n _ => outName n == target

theorem subDirs_subset (d : String) (e : Entry) (es : List Entry) :
    ∀ cs ∈ subDirs d [e], cs ∈ subDirs d (e :: es) := by
  intro cs hcs
  simp only [subDirs, List.mem_filterMap] at hcs ⊢
  obtain ⟨a, ha, hfa⟩ := hcs
  simp only [List.mem_singleton] at ha
  exact ⟨a, by simp [ha], hfa⟩

theorem subDirs_subset_rest (d : String) (e : Entry) (es : List Entry) :
    ∀ cs ∈ subDirs d es, cs ∈ subDirs d (e :: es) := by
  intro cs hcs
  simp only [subDirs, List.mem_filterMap] at hcs ⊢
  obtain ⟨a, ha, hfa⟩ := hcs
  exact ⟨a, by simp [ha], hfa⟩

theorem FileIn_cons_of_entry {ds : List String} {n : String} {c : Bytes}
    {e : Entry} (es : List Entry) (h : FileIn ds n c [e]) :
    FileIn ds n c (e :: es) := by
  cases ds with
  | nil =>
    obtain ⟨cs, hcs, hmem⟩ := h
    simp only [dirsAt, List.mem_singleton] at hcs
    subst hcs
    simp only [List.mem_singleton] at hmem
    exact ⟨e :: es, by simp [dirsAt], by simp [hmem]⟩
  | cons d ds =>
    obtain ⟨cs, hcs, hmem⟩ := h
    simp only [dirsAt, List.mem_flatMap] at hcs
    obtain ⟨cs0, hcs0, hin⟩ := hcs
    exact ⟨cs, by
      simp only [dirsAt, List.mem_flatMap]
      exact ⟨cs0, subDirs_subset d e es cs0 hcs0, hin⟩, hmem⟩

theorem FileIn_cons_of_rest {ds : List String} {n : String} {c : Bytes}
    (e : Entry) {es : List Entry} (h : FileIn ds n c es) :
    FileIn ds n c (e :: es) := by
  cases ds with
  | nil =>
    obtain ⟨cs, hcs, hmem⟩ := h
    simp only [dirsAt, List.mem_singleton] at hcs
    exact ⟨e :: es, by simp [dirsAt],
      List.mem_cons.mpr (Or.inr (hcs ▸ hmem))⟩
  | cons d ds =>
    obtain ⟨cs, hcs, hmem⟩ := h
    simp only [dirsAt, List.mem_flatMap] at hcs
    obtain ⟨cs0, hcs0, hin⟩ := hcs
    exact ⟨cs, by
      simp only [dirsAt, List.mem_flatMap]
      exact ⟨cs0, subDirs_subset_rest d e es cs0 hcs0, hin⟩, hmem⟩

mutual

theorem processEntry_writes_sound (encode : Bytes → Nat → Bytes)
    (jobId : String) (total : Nat) :
    ∀ (pfx : List String) (p : Nat) (e : Entry)
      (w : List String × Bytes),
      w ∈ (processEntry encode jobId total pfx p e).writes →
      ∃ ds n c, FileIn ds n c [e] ∧ w.1 = pfx ++ ds ++ [outName n] ∧
        (isPngName n = true → ∃ b, convertToWebP encode c 90 = .ok b)
  | pfx, p, .dir name children, w => by
    intro hw
    rw [processEntry] at hw
    obtain ⟨ds, n, c, hin, hpath, hok⟩ :=
      processDirectory_writes_sound encode jobId total
        (pfx ++ [name]) p children w hw
    refine ⟨name :: ds, n, c, ?_, ?_, hok⟩
    · obtain ⟨cs, hcs, hmem⟩ := hin
      refine ⟨cs, ?_, hmem⟩
      simp only [dirsAt, List.mem_flatMap]
      exact ⟨children, by simp [subDirs], hcs⟩
    · rw [hpath]
      simp
  | pfx, p, .file name c, w => by
    intro hw
    rw [processEntry] at hw
    split at hw
    · next hpng =>
      cases hcv : convertToWebP encode c 90 with
      | ok webp =>
        rw [hcv] at hw
        simp only [List.mem_singleton] at hw
        refine ⟨[], name, c, ?_, ?_, fun _ => ⟨webp, hcv⟩⟩
        · exact ⟨[Entry.file name c], by simp [dirsAt], by simp⟩
        · rw [hw]
          simp [outName, hpng]
      | error err =>
        rw [hcv] at hw
        simp at hw
    · next hpng =>
      simp only [List.mem_singleton] at hw
      refine ⟨[], name, c, ?_, ?_, fun hpng2 => absurd hpng2 (by simp [hpng])⟩
      · exact ⟨[Entry.file name c], by simp [dirsAt], by simp⟩
      · rw [hw]
        simp only [outName, hpng]
        simp

theorem processDirectory_writes_sound (encode : Bytes → Nat → Bytes)
    (jobId : String) (total : Nat) :
    ∀ (pfx : List String) (p : Nat) (es : List Entry)
      (w : List String × Bytes),
      w ∈ (processDirectory encode jobId total pfx p es).writes →
      ∃ ds n c, FileIn ds n c es ∧ w.1 = pfx ++ ds ++ [outName n] ∧
        (isPngName n = true → ∃ b, convertToWebP encode c 90 = .ok b)
  | _pfx, _p, [], w => by
    intro hw
    rw [processDirectory] at hw
    simp at hw
  | pfx, p, e :: es, w => by
    intro hw
    simp only [processDirectory] at hw
    rcases List.mem_append.mp hw with h | h
    · obtain ⟨ds, n, c, hin, hpath, hok⟩ :=
        processEntry_writes_sound encode jobId total pfx p e w h
      exact ⟨ds, n, c, FileIn_cons_of_entry es hin, hpath, hok⟩
    · obtain ⟨ds, n, c, hin, hpath, hok⟩ :=
        processDirectory_writes_sound encode jobId total pfx
          (processEntry encode jobId total pfx p e).count es w h
      exact ⟨ds, n, c, FileIn_cons_of_rest e hin, hpath, hok⟩

end

/-! ### Decimal rendering of job identifiers is injective -/

/-- Numeric value of a decimal digit character. -/
def digitVal (ch : Char) : Nat := ch.toNat - 48

theorem digitVal_digitChar : ∀ d, d < 10 → digitVal (Nat.digitChar d) = d := by
  decide

/-- Value of a most-significant-first decimal digit string. -/
def valOfDigits : List Char → Nat
  | [] => 0
  | ch :: cs => digitVal ch * 10 ^ cs.length + valOfDigits cs

theorem valOfDigits_toDigitsCore :
    ∀ (f n : Nat) (acc : List Char), n < f →
      valOfDigits (Nat.toDigitsCore 10 f n acc)
        = n * 10 ^ acc.length + valOfDigits acc := by
  intro f
  induction f with
  | zero =>
    intro n acc h
    exact absurd h (Nat.not_lt_zero n)
  | succ f ih =>
    intro n acc h
    by_cases hd : n / 10 = 0
    · rw [Nat.toDigitsCore]
      simp only [hd, if_true]
      rw [valOfDigits, digitVal_digitChar (n % 10) (by omega)]
      have h10 : n % 10 = n := by omega
      rw [h10]
    · rw [Nat.toDigitsCore]
      simp only [hd, if_false]
      rw [ih (n / 10) (Nat.digitChar (n % 10) :: acc) (by omega)]
      rw [valOfDigits, digitVal_digitChar (n % 10) (by omega)]
      simp only [List.length_cons, pow_succ]
      have key : n / 10 * (10 ^ acc.length * 10)
          + n % 10 * 10 ^ acc.length = n * 10 ^ acc.length := by
        have hmod := Nat.div_add_mod n 10
        calc n / 10 * (10 ^ acc.length * 10) + n % 10 * 10 ^ acc.length
            = (10 * (n / 10) + n % 10) * 10 ^ acc.length := by ring
          _ = n * 10 ^ acc.length := by rw [hmod]
      linarith [key]

theorem valOfDigits_toDigits (n : Nat) :
    valOfDigits (Nat.toDigits 10 n) = n := by
  have h := valOfDigits_toDigitsCore (n + 1) n [] (by omega)
  calc valOfDigits (Nat.toDigits 10 n)
      = n * 10 ^ (List.length ([] : List Char)) + valOfDigits [] := h
    _ = n := by simp [valOfDigits]

theorem natRepr_injective : ∀ m n : Nat, Nat.repr m = Nat.repr n → m = n := by
  intro m n h
  have hdig : Nat.toDigits 10 m = Nat.toDigits 10 n := congrArg String.data h
  have hval := congrArg valOfDigits hdig
  rwa [valOfDigits_toDigits, valOfDigits_toDigits] at hval

theorem tempDirOf_injective (a b : String) :
    tempDirOf a = tempDirOf b → a = b := by
  intro h
  rw [tempDirOf, tempDirOf] at h
  have h2 := congrArg String.data h
  simp only [String.data_append] at h2
  exact String.ext (List.append_cancel_left h2)

/-! ### Shape of the record traces -/

theorem processFilesAsync_ok_recs (encode : Bytes → Nat → Bytes)
    (jobId : String) (tree : List Entry) (cr : Except String Unit) :
    (processFilesAsync encode jobId (.ok tree) (.ok ()) cr).recs =
      [extractingRecord jobId, convertingRecord jobId]
        ++ (processDirectory encode jobId (countPngsList tree) [] 0 tree).recs
        ++ [zippingRecord jobId,
            completedRecord jobId
              (processDirectory encode jobId (countPngsList tree) [] 0
                tree).count
              (countPngsList tree)] := rfl

theorem processFilesAsync_ok_writes (encode : Bytes → Nat → Bytes)
    (jobId : String) (tree : List Entry) (cr : Except String Unit) :
    (processFilesAsync encode jobId (.ok tree) (.ok ()) cr).writes =
      (processDirectory encode jobId (countPngsList tree) [] 0 tree).writes :=
  rfl

theorem processFilesAsync_extractFail (encode : Bytes → Nat → Bytes)
    (jobId : String) (e : String) (zr cr : Except String Unit) :
    processFilesAsync encode jobId (.error e) zr cr =
      { recs := [extractingRecord jobId, failedRecord jobId e],
        writes := [], cleanupAttempted := true } := by
  cases cr <;> rfl

theorem processFilesAsync_zipFail (encode : Bytes → Nat → Bytes)
    (jobId : String) (tree : List Entry) (e : String)
    (cr : Except String Unit) :
    processFilesAsync encode jobId (.ok tree) (.error e) cr =
      { recs := [extractingRecord jobId, convertingRecord jobId]
          ++ (processDirectory encode jobId (countPngsList tree) [] 0
              tree).recs
          ++ [zippingRecord jobId, failedRecord jobId e],
        writes :=
          (processDirectory encode jobId (countPngsList tree) [] 0
            tree).writes,
        cleanupAttempted := true } := by
  cases cr <;> rfl

theorem processFilesAsync_ok_getLast (encode : Bytes → Nat → Bytes)
    (jobId : String) (tree : List Entry) (cr : Except String Unit) :
    (processFilesAsync encode jobId (.ok tree) (.ok ()) cr).recs.getLast? =
      some (completedRecord jobId
        (processDirectory encode jobId (countPngsList tree) [] 0 tree).count
        (countPngsList tree)) := by
  rw [processFilesAsync_ok_recs]
  rw [show [extractingRecord jobId, convertingRecord jobId]
        ++ (processDirectory encode jobId (countPngsList tree) [] 0 tree).recs
        ++ [zippingRecord jobId,
            completedRecord jobId
              (processDirectory encode jobId (countPngsList tree) [] 0
                tree).count
              (countPngsList tree)]
      = ([extractingRecord jobId, convertingRecord jobId]
          ++ (processDirectory encode jobId (countPngsList tree) [] 0
              tree).recs
          ++ [zippingRecord jobId])
        ++ [completedRecord jobId
              (processDirectory encode jobId (countPngsList tree) [] 0
                tree).count
              (countPngsList tree)] by simp]
  exact List.getLast?_concat _

theorem processFilesAsync_zipFail_getLast (encode : Bytes → Nat → Bytes)
    (jobId : String) (tree : List Entry) (e : String)
    (cr : Except String Unit) :
    (processFilesAsync encode jobId (.ok tree) (.error e) cr).recs.getLast? =
      some (failedRecord jobId e) := by
  rw [processFilesAsync_zipFail]
  rw [show [extractingRecord jobId, convertingRecord jobId]
        ++ (processDirectory encode jobId (countPngsList tree) [] 0 tree).recs
        ++ [zippingRecord jobId, failedRecord jobId e]
      = ([extractingRecord jobId, convertingRecord jobId]
          ++ (processDirectory encode jobId (countPngsList tree) [] 0
              tree).recs
          ++ [zippingRecord jobId])
        ++ [failedRecord jobId e] by simp]
  exact List.getLast?_concat _

theorem processFilesAsync_extractFail_getLast (encode : Bytes → Nat → Bytes)
    (jobId : String) (e : String) (zr cr : Except String Unit) :
    (processFilesAsync encode jobId (.error e) zr cr).recs.getLast? =
      some (failedRecord jobId e) := by
  rw [processFilesAsync_extractFail]
  rfl

/-! ### Bounds on the converting-stage progress value -/

theorem progressOf_le_90 (p t : Nat) : progressOf p t ≤ 90 :=
  min_le_left _ _

theorem ten_le_progressOf (p t : Nat) : 10 ≤ progressOf p t :=
  le_min (by norm_num) (Nat.le_add_right 10 _)

theorem progressOf_mono (t : Nat) {a b : Nat} (h : a ≤ b) :
    progressOf a t ≤ progressOf b t := by
  rw [progressOf, progressOf]
  refine min_le_min le_rfl ?_
  have : a * 70 / t ≤ b * 70 / t :=
    Nat.div_le_div_right (Nat.mul_le_mul_right 70 h)
  omega

theorem progressOf_le_80 {p t : Nat} (h : p ≤ t) : progressOf p t ≤ 80 := by
  rw [progressOf]
  have hdiv : p * 70 / t ≤ 70 :=
    Nat.div_le_of_le_mul (Nat.mul_le_mul_right 70 h)
  omega

theorem progressOf_self {t : Nat} (h : 1 ≤ t) : progressOf t t = 80 := by
  rw [progressOf, Nat.mul_div_cancel_left 70 (by omega)]
  norm_num

theorem progressOf_eq (p t : Nat) :
    progressOf p t = min 90 (10 + p * 70 / t) := rfl

/-! ### Helper lemmas about trace membership and demo inputs -/

theorem mem_walk_recs (encode : Bytes → Nat → Bytes) (jobId : String)
    (total : Nat) (pfx : List String) (p : Nat) (es : List Entry)
    (r : JobRecord)
    (hr : r ∈ (processDirectory encode jobId total pfx p es).recs) :
    ∃ k, r = fileRecord jobId k total ∧ p + 1 ≤ k ∧
      k ≤ p + countOkList encode es := by
  rw [processDirectory_recs] at hr
  rcases List.mem_map.mp hr with ⟨k, hk, hfk⟩
  rw [List.mem_range'_1] at hk
  exact ⟨k, hfk.symm, by omega, by omega⟩

theorem filterMap_progress (jobId : String) (total : Nat) (ks : List Nat) :
    List.filterMap (nonTerminalProgress ∘ fun k => fileRecord jobId k total)
      ks = ks.map (fun k => progressOf k total) := by
  induction ks with
  | nil => rfl
  | cons k ks ih =>
    rw [List.filterMap_cons,
      show (nonTerminalProgress ∘ fun k => fileRecord jobId k total) k
        = some (progressOf k total) from rfl, ih]
    rfl

theorem chain_progress (jobId : String) (total cnt : Nat) :
    List.Chain' (fun a b => a ≤ b)
      (0 :: 10 :: ((List.range' 1 cnt).map (fun k => progressOf k total)
        ++ [90])) := by
  rw [List.chain'_cons']
  refine ⟨?_, ?_⟩
  · intro y hy
    simp only [List.head?_cons, Option.mem_def, Option.some.injEq] at hy
    omega
  rw [List.chain'_cons']
  refine ⟨?_, ?_⟩
  · intro y hy
    rcases List.mem_append.mp (List.mem_of_mem_head? hy) with h | h
    · rcases List.mem_map.mp h with ⟨k, _, hk⟩
      have := ten_le_progressOf k total
      omega
    · simp only [List.mem_singleton] at h
      omega
  rw [List.chain'_append]
  refine ⟨?_, List.chain'_singleton _, ?_⟩
  · exact ((List.pairwise_lt_range' 1 cnt 1 (by norm_num)).map _
      (fun a b hab => progressOf_mono total (Nat.le_of_lt hab))).chain'
  · intro x hx y hy
    simp only [List.head?_cons, Option.mem_def, Option.some.injEq] at hy
    rcases List.mem_map.mp (List.mem_of_mem_getLast? hx) with ⟨k, _, hk⟩
    subst hy
    rw [← hk]
    exact progressOf_le_90 k total

/-- Demo codec whose output always fits at the first quality level. -/
def encSmall : Bytes → Nat → Bytes := fun _ _ => [0]

/-- Demo codec whose output never fits under the ceiling. -/
def encAlwaysBig : Bytes → Nat → Bytes :=
  fun _ _ => List.replicate (maxSize + 1) 0

/-- Demo codec whose output fits exactly from quality 70 downwards. -/
def encSucceedAt70 : Bytes → Nat → Bytes :=
  fun _ q => if 80 ≤ q then List.replicate (maxSize + 1) 0 else [0]

/-- Demo tree: a single convertible file at the root. -/
def tree1 : List Entry := [Entry.file "a.png" []]

theorem encSmall_ok90 (b : Bytes) : convertToWebP encSmall b 90 = .ok [0] := by
  rw [convertToWebP]
  simp [encSmall, maxSize]

theorem encAlwaysBig_fails (b : Bytes) (q : Nat) :
    convertToWebP encAlwaysBig b q = .error .CompressionFailed := by
  induction q using Nat.strong_induction_on with
  | _ q ih =>
    rw [convertToWebP]
    split
    · rfl
    · next hq =>
      rw [if_pos (by
        simp only [encAlwaysBig, List.length_replicate, gt_iff_lt]
        omega)]
      exact ih (q - 10) (by omega)

theorem convert_encS70 : convertToWebP encSucceedAt70 [] 90 = .ok [0] := by
  rw [convertToWebP, dif_neg (by omega : ¬ (90 : Nat) < 10),
    if_pos (by simp only [encSucceedAt70]; norm_num)]
  rw [show (90 : Nat) - 10 = 80 from rfl]
  rw [convertToWebP, dif_neg (by omega : ¬ (80 : Nat) < 10),
    if_pos (by simp only [encSucceedAt70]; norm_num)]
  rw [show (80 : Nat) - 10 = 70 from rfl]
  rw [convertToWebP, dif_neg (by omega : ¬ (70 : Nat) < 10),
    if_neg (by simp only [encSucceedAt70]; norm_num [maxSize])]
  simp [encSucceedAt70]

theorem qt_encS70 : qualitiesTried encSucceedAt70 [] 90 = [90, 80, 70] := by
  rw [qualitiesTried, dif_neg (by omega : ¬ (90 : Nat) < 10),
    if_pos (by simp only [encSucceedAt70]; norm_num)]
  rw [show (90 : Nat) - 10 = 80 from rfl]
  rw [qualitiesTried, dif_neg (by omega : ¬ (80 : Nat) < 10),
    if_pos (by simp only [encSucceedAt70]; norm_num)]
  rw [show (80 : Nat) - 10 = 70 from rfl]
  rw [qualitiesTried, dif_neg (by omega : ¬ (70 : Nat) < 10),
    if_neg (by simp only [encSucceedAt70]; norm_num [maxSize])]

theorem isPngName_apng : isPngName "a.png" = true := by decide

theorem countPngs_tree1 : countPngsList tree1 = 1 := by
  simp [tree1, countPngsList, countPngsEntry, isPngName_apng]

theorem countOkList_tree1_err (encode : Bytes → Nat → Bytes)
    (h : convertToWebP encode [] 90 = .error .CompressionFailed) :
    countOkList encode tree1 = 0 := by
  simp only [tree1, countOkList, countOkEntry, h]
  simp

theorem countOk_tree1_big : countOkList encAlwaysBig tree1 = 0 :=
  countOkList_tree1_err encAlwaysBig (encAlwaysBig_fails [] 90)

theorem walk_tree1_recs :
    (processDirectory encSmall "1" 1 [] 0 tree1).recs = [fileRecord "1" 1 1] := by
  simp [tree1, processDirectory, processEntry, isPngName_apng, encSmall_ok90]

theorem fileRecord_mem_demo :
    fileRecord "1" 1 1 ∈
      (processFilesAsync encSmall "1" (.ok tree1) (.ok ()) (.ok ())).recs := by
  rw [processFilesAsync_ok_recs, countPngs_tree1, walk_tree1_recs]
  simp

/-! ### Claim theorems -/

/-- C2: for every input, the quality-search converter entered at its default
quality 90 either returns compressed bytes whose length is at most the 2 MiB
ceiling, or fails with `CompressionFailed`; it never returns bytes exceeding
the ceiling. -/
theorem convert_size_ceiling_or_fail (encode : Bytes → Nat → Bytes)
    (buffer : Bytes) :
    ((∃ w, convertToWebP encode buffer 90 = .ok w ∧ w.length ≤ maxSize) ∨
      convertToWebP encode buffer 90 = .error .CompressionFailed) ∧
    ∀ w, convertToWebP encode buffer 90 = .ok w → w.length ≤ maxSize :=
  ⟨convertToWebP_total encode buffer 90, convertToWebP_ok_le encode buffer 90⟩

/-- C2 witness: a codec that fits at once exercises the success branch. -/
theorem convert_size_ceiling_or_fail_witness :
    List.length ([0] : Bytes) ≤ maxSize :=
  (convert_size_ceiling_or_fail encSmall []).2 [0] (encSmall_ok90 [])

/-- C3: the quality levels passed to the codec form the strictly decreasing
sequence 90, 80, 70, ... with step 10; the search stops at the first level
whose output meets the size ceiling, never invokes the codec below level 10,
and fails with `CompressionFailed` only after level 10 has been tried
without success. -/
theorem convert_quality_ladder (encode : Bytes → Nat → Bytes)
    (buffer : Bytes) :
    (qualitiesTried encode buffer 90).head? = some 90 ∧
    List.Chain' (fun a b => a = b + 10) (qualitiesTried encode buffer 90) ∧
    (∀ x ∈ qualitiesTried encode buffer 90, 10 ≤ x ∧ x ≤ 90) ∧
    (∀ w, convertToWebP encode buffer 90 = .ok w →
      ∃ q, (qualitiesTried encode buffer 90).getLast? = some q ∧
        w = encode buffer q ∧ (encode buffer q).length ≤ maxSize ∧
        ∀ p ∈ qualitiesTried encode buffer 90,
          p ≠ q → maxSize < (encode buffer p).length) ∧
    (convertToWebP encode buffer 90 = .error .CompressionFailed →
      (qualitiesTried encode buffer 90).getLast? = some 10 ∧
        ∀ p ∈ qualitiesTried encode buffer 90,
          maxSize < (encode buffer p).length) := by
  rw [show (90 : Nat) = 10 * 8 + 10 from by norm_num]
  exact ⟨qualitiesTried_head encode buffer 8, qualitiesTried_chain encode buffer 8,
    qualitiesTried_mem encode buffer 8, qualitiesTried_ok encode buffer 8,
    qualitiesTried_err encode buffer 8⟩

/-- C3 witness: for a codec fitting from quality 70 on, the ladder stops at
70 and the rejected level 90 indeed exceeded the ceiling. -/
theorem convert_quality_ladder_witness :
    (10 : Nat) ≤ 70 ∧ maxSize < (encSucceedAt70 [] 90).length := by
  obtain ⟨q, hlast, hwq, hle, hother⟩ :=
    (convert_quality_ladder encSucceedAt70 []).2.2.2.1 [0] convert_encS70
  rw [qt_encS70] at hlast hother
  have h70 : (some 70 : Option Nat) = some q := hlast
  injection h70 with h70
  subst h70
  exact ⟨by norm_num, hother 90 (by simp) (by omega)⟩

/-- C1 counterexample: a tree with one convertible file whose conversion
fails completes with `processedFiles = 0`, not `N = 1`: failed attempts are
not counted. -/
theorem processed_undercount_cex :
    (processFilesAsync encAlwaysBig "1" (.ok tree1) (.ok ())
        (.ok ())).recs.getLast? = some (completedRecord "1" 0 1) ∧
      countPngsList tree1 = 1 ∧
      (completedRecord "1" 0 1).processedFiles = some 0 ∧ (0 : Nat) ≠ 1 := by
  refine ⟨?_, countPngs_tree1, rfl, by omega⟩
  rw [processFilesAsync_ok_getLast, processDirectory_count, countOk_tree1_big,
    countPngs_tree1]

/-- C1 (amended): a job over an extracted tree with N convertible files of
which K fail conversion reaches `completed` with
`processedFiles = N - K`: the counter is incremented exactly once per
successfully converted file, and failed attempts are not counted. -/
theorem completed_processedFiles_eq_successes (encode : Bytes → Nat → Bytes)
    (jobId : String) (tree : List Entry) (cleanupRes : Except String Unit) :
    (processFilesAsync encode jobId (.ok tree) (.ok ())
        cleanupRes).recs.getLast? =
      some (completedRecord jobId
        (countPngsList tree - countFailList encode tree)
        (countPngsList tree)) := by
  rw [processFilesAsync_ok_getLast, processDirectory_count]
  have h := countOk_add_countFail_list encode tree
  have h2 : 0 + countOkList encode tree
      = countPngsList tree - countFailList encode tree := by omega
  rw [h2]

/-- C4 counterexample: with one convertible file that converts at once, the
record published when all files are processed carries progress 80, not 90:
the converting stage tops out at 80. -/
theorem converting_progress_cex :
    fileRecord "1" 1 1 ∈
        (processFilesAsync encSmall "1" (.ok tree1) (.ok ()) (.ok ())).recs ∧
      (fileRecord "1" 1 1).processedFiles = some 1 ∧
      (fileRecord "1" 1 1).totalFiles = some 1 ∧
      (fileRecord "1" 1 1).progress = some 80 ∧ (80 : Nat) ≠ 90 :=
  ⟨fileRecord_mem_demo, rfl, rfl, by decide, by omega⟩

/-- C4 (amended): during the converting stage every published record that
carries both counters has progress `min 90 (10 + 70p/t)`: it advances
linearly from 10 and reaches 80 (not 90) when all files are processed, so
the min-90 cap never binds during this stage. -/
theorem converting_progress_formula (encode : Bytes → Nat → Bytes)
    (jobId : String) (tree : List Entry) (cleanupRes : Except String Unit)
    (r : JobRecord)
    (hr : r ∈ (processFilesAsync encode jobId (.ok tree) (.ok ())
        cleanupRes).recs)
    (hst : r.status = .converting) (p t : Nat)
    (hp : r.processedFiles = some p) (ht : r.totalFiles = some t) :
    r.progress = some (min 90 (10 + p * 70 / t)) ∧ 1 ≤ p ∧ p ≤ t ∧
      10 ≤ min 90 (10 + p * 70 / t) ∧ min 90 (10 + p * 70 / t) ≤ 80 := by
  rw [processFilesAsync_ok_recs] at hr
  rcases List.mem_append.mp hr with h | h
  · rcases List.mem_append.mp h with h2 | h2
    · rcases List.mem_cons.mp h2 with h3 | h3
      · subst h3
        simp [extractingRecord] at hp
      · simp only [List.mem_singleton] at h3
        subst h3
        simp [convertingRecord] at hp
    · obtain ⟨k, hk, h1k, hkle⟩ :=
        mem_walk_recs encode jobId (countPngsList tree) [] 0 tree r h2
      subst hk
      simp only [fileRecord, Option.some.injEq] at hp ht
      subst hp
      subst ht
      have hle2 : k ≤ countPngsList tree := by
        have := countOk_le_countPngs encode tree
        omega
      refine ⟨rfl, by omega, hle2, ten_le_progressOf _ _, ?_⟩
      have h80 := progressOf_le_80 hle2
      rw [progressOf] at h80
      exact h80
  · rcases List.mem_cons.mp h with h3 | h3
    · subst h3
      simp [zippingRecord] at hst
    · simp only [List.mem_singleton] at h3
      subst h3
      simp [completedRecord] at hst

/-- C4 witness: the amended formula applied to the concrete record of the
one-file demo job: progress is exactly 80 at full processing. -/
theorem converting_progress_formula_witness :
    (fileRecord "1" 1 1).progress = some (min 90 (10 + 1 * 70 / 1)) ∧
      (1 : Nat) ≤ 1 ∧ (1 : Nat) ≤ 1 ∧ 10 ≤ min 90 (10 + 1 * 70 / 1) ∧
      min 90 (10 + 1 * 70 / 1) ≤ 80 :=
  converting_progress_formula encSmall "1" tree1 (.ok ())
    (fileRecord "1" 1 1) fileRecord_mem_demo rfl 1 1 rfl rfl

/-- C5: within one job the published progress values are non-decreasing
while the status is `extracting`, `converting` or `zipping`: progress never
regresses before a terminal state. -/
theorem progress_monotone_nonterminal (encode : Bytes → Nat → Bytes)
    (jobId : String) (extractRes : Except String (List Entry))
    (zipRes cleanupRes : Except String Unit) :
    List.Chain' (fun a b => a ≤ b)
      ((processFilesAsync encode jobId extractRes zipRes
          cleanupRes).recs.filterMap nonTerminalProgress) := by
  cases extractRes with
  | error e =>
    rw [processFilesAsync_extractFail]
    simp only [List.filterMap_cons, List.filterMap_nil]
    rw [show nonTerminalProgress (extractingRecord jobId) = some 0 from rfl,
      show nonTerminalProgress (failedRecord jobId e) = none from rfl]
    exact List.chain'_singleton 0
  | ok tree =>
    have hrecs := processDirectory_recs encode jobId (countPngsList tree)
      [] 0 tree
    cases zipRes with
    | ok u =>
      cases u
      rw [processFilesAsync_ok_recs, hrecs]
      rw [List.filterMap_append, List.filterMap_append, List.filterMap_map]
      rw [show List.filterMap nonTerminalProgress
          [extractingRecord jobId, convertingRecord jobId] = [0, 10] from rfl]
      rw [filterMap_progress]
      rw [show List.filterMap nonTerminalProgress
          [zippingRecord jobId,
            completedRecord jobId
              (processDirectory encode jobId (countPngsList tree) [] 0
                tree).count (countPngsList tree)] = [90] from rfl]
      simpa [List.append_assoc] using
        chain_progress jobId (countPngsList tree) (countOkList encode tree)
    | error e =>
      rw [processFilesAsync_zipFail, hrecs]
      rw [List.filterMap_append, List.filterMap_append, List.filterMap_map]
      rw [show List.filterMap nonTerminalProgress
          [extractingRecord jobId, convertingRecord jobId] = [0, 10] from rfl]
      rw [filterMap_progress]
      rw [show List.filterMap nonTerminalProgress
          [zippingRecord jobId, failedRecord jobId e] = [90] from rfl]
      simpa [List.append_assoc] using
        chain_progress jobId (countPngsList tree) (countOkList encode tree)

/-- C10: every published record that carries both counters satisfies
`processedFiles ≤ totalFiles`: the counting pass and the walk classify
files with the same case-insensitive `.png` predicate over the same tree,
so the processed counter never exceeds the precomputed total. -/
theorem processed_le_total (encode : Bytes → Nat → Bytes) (jobId : String)
    (extractRes : Except String (List Entry))
    (zipRes cleanupRes : Except String Unit) (r : JobRecord)
    (hr : r ∈ (processFilesAsync encode jobId extractRes zipRes
        cleanupRes).recs)
    (p t : Nat) (hp : r.processedFiles = some p)
    (ht : r.totalFiles = some t) : p ≤ t := by
  cases extractRes with
  | error e =>
    rw [processFilesAsync_extractFail] at hr
    rcases List.mem_cons.mp hr with h3 | h3
    · subst h3
      simp [extractingRecord] at hp
    · simp only [List.mem_singleton] at h3
      subst h3
      simp [failedRecord] at hp
  | ok tree =>
    have hwalk : ∀ r2 ∈ (processDirectory encode jobId (countPngsList tree)
        [] 0 tree).recs, r2.processedFiles = some p →
        r2.totalFiles = some t → p ≤ t := by
      intro r2 hr2 hp2 ht2
      obtain ⟨k, hk, h1k, hkle⟩ :=
        mem_walk_recs encode jobId (countPngsList tree) [] 0 tree r2 hr2
      subst hk
      simp only [fileRecord, Option.some.injEq] at hp2 ht2
      have := countOk_le_countPngs encode tree
      omega
    cases zipRes with
    | ok u =>
      cases u
      rw [processFilesAsync_ok_recs] at hr
      rcases List.mem_append.mp hr with h | h
      · rcases List.mem_append.mp h with h2 | h2
        · rcases List.mem_cons.mp h2 with h3 | h3
          · subst h3
            simp [extractingRecord] at hp
          · simp only [List.mem_singleton] at h3
            subst h3
            simp [convertingRecord] at hp
        · exact hwalk r h2 hp ht
      · rcases List.mem_cons.mp h with h3 | h3
        · subst h3
          simp [zippingRecord] at hp
        · simp only [List.mem_singleton] at h3
          subst h3
          simp only [completedRecord, Option.some.injEq] at hp ht
          rw [processDirectory_count] at hp
          have := countOk_le_countPngs encode tree
          omega
    | error e =>
      rw [processFilesAsync_zipFail] at hr
      rcases List.mem_append.mp hr with h | h
      · rcases List.mem_append.mp h with h2 | h2
        · rcases List.mem_cons.mp h2 with h3 | h3
          · subst h3
            simp [extractingRecord] at hp
          · simp only [List.mem_singleton] at h3
            subst h3
            simp [convertingRecord] at hp
        · exact hwalk r h2 hp ht
      · rcases List.mem_cons.mp h with h3 | h3
        · subst h3
          simp [zippingRecord] at hp
        · simp only [List.mem_singleton] at h3
          subst h3
          simp [failedRecord] at hp

/-- C10 witness: the invariant applied to the one-file demo record. -/
theorem processed_le_total_witness : (1 : Nat) ≤ 1 :=
  processed_le_total encSmall "1" (.ok tree1) (.ok ()) (.ok ())
    (fileRecord "1" 1 1) fileRecord_mem_demo 1 1 rfl rfl

/-- Job id generated by the submission handler: `Date.now().toString()`,
independent of the uploaded archive. -/
def submitJobId (now : Nat) (_upload : Bytes) : String := toString now

/-- C6 counterexample: two distinct submissions in the same millisecond
(equal `Date.now()` values, different uploads) receive the same job
identifier, hence the same registry key and the same temp directory. -/
theorem jobId_collision_cex :
    ((1700000000000, [1]) : Nat × Bytes) ≠ ((1700000000000, [2]) : Nat × Bytes) ∧
      submitJobId 1700000000000 [1] = submitJobId 1700000000000 [2] ∧
      tempDirOf (submitJobId 1700000000000 [1])
        = tempDirOf (submitJobId 1700000000000 [2]) := by
  refine ⟨?_, rfl, rfl⟩
  intro h
  have h2 := congrArg Prod.snd h
  simp at h2

/-- C6 (amended): submissions whose `Date.now()` timestamps differ receive
distinct job identifiers and distinct temp directories (the id is part of
the path); two submissions within the same millisecond collide on both. -/
theorem distinct_times_distinct_jobIds (t1 t2 : Nat) (u1 u2 : Bytes)
    (h : t1 ≠ t2) :
    submitJobId t1 u1 ≠ submitJobId t2 u2 ∧
      tempDirOf (submitJobId t1 u1) ≠ tempDirOf (submitJobId t2 u2) := by
  have hid : submitJobId t1 u1 ≠ submitJobId t2 u2 := by
    intro he
    exact h (natRepr_injective t1 t2 he)
  exact ⟨hid, fun htd => hid (tempDirOf_injective _ _ htd)⟩

/-- C6 witness: timestamps 1 and 2 give different ids and temp paths. -/
theorem distinct_times_distinct_jobIds_witness :
    submitJobId 1 [] ≠ submitJobId 2 [] ∧
      tempDirOf (submitJobId 1 []) ≠ tempDirOf (submitJobId 2 []) :=
  distinct_times_distinct_jobIds 1 2 [] [] (by omega)

/-- C7 counterexample: immediately after the submission handler returns the
job id, the registry is still untouched — the record is only created later
by the scheduled task — so a status query at that point yields `NotFound`
even though it lies after `submitJob` returned and before any cleanup. -/
theorem record_missing_after_submit_cex :
    regGet (submitFolderStructure [] 1234).2
        (submitFolderStructure [] 1234).1 = none ∧
      (submitFolderStructure [] 1234).1 = "1234" := ⟨rfl, rfl⟩

/-- C7 (amended): the job record is created by the orchestrator task as its
first registry write, with status `extracting` and progress 0, rather than
at submission time; until that write happens, `getStatus` returns
`NotFound`. -/
theorem first_record_extracting_zero (encode : Bytes → Nat → Bytes)
    (jobId : String) (extractRes : Except String (List Entry))
    (zipRes cleanupRes : Except String Unit) :
    (processFilesAsync encode jobId extractRes zipRes
        cleanupRes).recs.head? = some (extractingRecord jobId) ∧
      (extractingRecord jobId).status = .extracting ∧
      (extractingRecord jobId).progress = some 0 := by
  refine ⟨?_, rfl, rfl⟩
  cases extractRes with
  | error e =>
    rw [processFilesAsync_extractFail]
    rfl
  | ok tree =>
    cases zipRes with
    | ok u =>
      cases u
      rw [processFilesAsync_ok_recs]
      rfl
    | error e2 =>
      rw [processFilesAsync_zipFail]
      rfl

theorem downloadEndpoint_failed (jobId : String) (run : JobRun)
    (msg : String)
    (h : run.recs.getLast? = some (failedRecord jobId msg)) :
    downloadEndpoint (registryAfter jobId run) jobId = .notFound := by
  rw [registryAfter, h]
  simp [downloadEndpoint, regGet, List.find?, failedRecord]

/-- C9: when extraction or archive creation raises an exception, the job
transitions directly to `failed` carrying the raised message as a non-empty
error, the temp-directory cleanup is attempted with its own errors
swallowed (the outcome does not depend on the cleanup result), and the
download endpoint answers `NotFound` for that job. -/
theorem stage_failure_fails_job (encode : Bytes → Nat → Bytes)
    (jobId : String) (e : String) (tree : List Entry)
    (zr cr cr2 : Except String Unit) (he : e ≠ "") :
    (processFilesAsync encode jobId (.error e) zr cr).recs.getLast?
        = some (failedRecord jobId e) ∧
      (failedRecord jobId e).status = .failed ∧
      (failedRecord jobId e).errorMessage = some e ∧
      (failedRecord jobId e).errorMessage ≠ some "" ∧
      (processFilesAsync encode jobId (.error e) zr cr).cleanupAttempted
        = true ∧
      processFilesAsync encode jobId (.error e) zr cr
        = processFilesAsync encode jobId (.error e) zr cr2 ∧
      downloadEndpoint
        (registryAfter jobId
          (processFilesAsync encode jobId (.error e) zr cr)) jobId
        = .notFound ∧
      (processFilesAsync encode jobId (.ok tree) (.error e) cr).recs.getLast?
        = some (failedRecord jobId e) ∧
      (processFilesAsync encode jobId (.ok tree) (.error e)
          cr).cleanupAttempted = true ∧
      downloadEndpoint
        (registryAfter jobId
          (processFilesAsync encode jobId (.ok tree) (.error e) cr)) jobId
        = .notFound := by
  refine ⟨processFilesAsync_extractFail_getLast encode jobId e zr cr,
    rfl, rfl, ?_, ?_, ?_, ?_,
    processFilesAsync_zipFail_getLast encode jobId tree e cr, ?_, ?_⟩
  · intro hEq
    rw [failedRecord] at hEq
    simp only [Option.some.injEq] at hEq
    exact he hEq
  · rw [processFilesAsync_extractFail]
  · rw [processFilesAsync_extractFail, processFilesAsync_extractFail]
  · exact downloadEndpoint_failed jobId _ e
      (processFilesAsync_extractFail_getLast encode jobId e zr cr)
  · rw [processFilesAsync_zipFail]
  · exact downloadEndpoint_failed jobId _ e
      (processFilesAsync_zipFail_getLast encode jobId tree e cr)

/-- C9 witness: a concrete extraction failure with message "boom". -/
theorem stage_failure_fails_job_witness :
    (failedRecord "1" "boom").errorMessage ≠ some "" ∧
      downloadEndpoint
        (registryAfter "1"
          (processFilesAsync encSmall "1" (.error "boom") (.ok ())
            (.ok ()))) "1" = .notFound := by
  have h := stage_failure_fails_job encSmall "1" "boom" tree1 (.ok ())
    (.ok ()) (.ok ()) (by decide)
  exact ⟨h.2.2.2.1, h.2.2.2.2.2.2.1⟩

/-- Demo tree for the failure-absorption claim: one failing convertible
file beside a pass-through file, inside a subdirectory. -/
def treeC8 : List Entry :=
  [Entry.dir "sub" [Entry.file "a.png" [], Entry.file "b.txt" [7]]]

/-- C8: a per-file conversion failure is absorbed: the walk continues, the
job still reaches `completed`, and no output file is written at the failed
file's target path — it is simply absent from the output tree (stated for
trees in which no sibling entry maps to the same output name). -/
theorem failed_file_absent_job_completes (encode : Bytes → Nat → Bytes)
    (jobId : String) (tree : List Entry) (cleanupRes : Except String Unit)
    (ds : List String) (name : String) (c : Bytes)
    (_hmem : FileIn ds name c tree)
    (hpng : isPngName name = true)
    (hfail : convertToWebP encode c 90 = .error .CompressionFailed)
    (huniq : ∀ cs ∈ dirsAt ds tree, ∀ e ∈ cs,
      producesName (stemName name ++ ".webp") e = true →
        e = Entry.file name c) :
    ((processFilesAsync encode jobId (.ok tree) (.ok ())
        cleanupRes).recs.getLast?).map JobRecord.status
        = some .completed ∧
      (processFilesAsync encode jobId (.ok tree) (.ok ())
          cleanupRes).writes.filter
        (fun w => w.1 == ds ++ [stemName name ++ ".webp"]) = [] := by
  constructor
  · rw [processFilesAsync_ok_getLast]
    rfl
  · rw [processFilesAsync_ok_writes, List.filter_eq_nil_iff]
    intro w hw hbeq
    rw [beq_iff_eq] at hbeq
    obtain ⟨ds2, n2, c2, hin, hpath, hok⟩ :=
      processDirectory_writes_sound encode jobId (countPngsList tree) [] 0
        tree w hw
    rw [hbeq] at hpath
    simp only [List.nil_append] at hpath
    obtain ⟨hds, hlast⟩ := List.append_inj' hpath (by simp)
    simp only [List.cons.injEq, and_true] at hlast
    obtain ⟨cs, hcs, hmem2⟩ := hin
    rw [← hds] at hcs
    have hprod : producesName (stemName name ++ ".webp")
        (Entry.file n2 c2) = true := by
      simp only [producesName]
      rw [beq_iff_eq]
      exact hlast.symm
    have heq := huniq cs hcs (Entry.file n2 c2) hmem2 hprod
    injection heq with hn hc
    obtain ⟨b, hb⟩ := hok (by rw [hn]; exact hpng)
    rw [hc, hfail] at hb
    exact absurd hb (by simp)

/-- C8 witness: the failing file `sub/a.png` leaves no `sub/a.webp` in the
output and the job still completes. -/
theorem failed_file_absent_job_completes_witness :
    ((processFilesAsync encAlwaysBig "1" (.ok treeC8) (.ok ())
        (.ok ())).recs.getLast?).map JobRecord.status
        = some .completed ∧
      (processFilesAsync encAlwaysBig "1" (.ok treeC8) (.ok ())
          (.ok ())).writes.filter
        (fun w => w.1 == ["sub"] ++ [stemName "a.png" ++ ".webp"]) = [] :=
  failed_file_absent_job_completes encAlwaysBig "1" treeC8 (.ok ())
    ["sub"] "a.png" [] (by decide) (by decide) (encAlwaysBig_fails [] 90)
    (by decide)
